import Mathlib

/-!
Shallow embedding of the chess-analytics core pipeline:
corner ordering and piece-to-square mapping (`board_geometry.py`),
the ad-hoc confidence reconstruction of `detector.full_pipeline`
(`detector.py`), and FEN generation/validation (`fen_generator.py`).

Python strings are modelled as lists of characters (`Str`), Python
floats as rationals (`ℚ`), Python dicts as functions into `Option`.
-/

/-- Python strings, modelled as lists of characters. -/
abbrev Str := List Char

/-! ## board_geometry.order_corners -/

/-- Sum x + y of a 2-D point (`sums` in `order_corners`). -/
def psum (p : ℚ × ℚ) : ℚ := p.1 + p.2

/-- Difference x - y of a 2-D point (`diffs` in `order_corners`). -/
def pdiff (p : ℚ × ℚ) : ℚ := p.1 - p.2

/-- One step of a running minimum index: the candidate replaces the best
only when strictly smaller (so the first minimum wins on ties). -/
def updMin (f : Fin 4 → ℚ) (best cand : Fin 4) : Fin 4 :=
  if f cand < f best then cand else best

/-- One step of a running maximum index: the candidate replaces the best
only when strictly larger (so the first maximum wins on ties). -/
def updMax (f : Fin 4 → ℚ) (best cand : Fin 4) : Fin 4 :=
  if f best < f cand then cand else best

/-- `np.argmin` over the 4 values `f 0, f 1, f 2, f 3`: index of the
minimum, first occurrence on ties. -/
def argmin4 (f : Fin 4 → ℚ) : Fin 4 :=
  updMin f (updMin f (updMin f 0 1) 2) 3

/-- `np.argmax` over the 4 values: index of the maximum, first
occurrence on ties. -/
def argmax4 (f : Fin 4 → ℚ) : Fin 4 :=
  updMax f (updMax f (updMax f 0 1) 2) 3

/-- `remaining = [i for i in range(4) if i not in (tl_idx, br_idx)]`. -/
def remainingOf (tl_idx br_idx : Fin 4) : List (Fin 4) :=
  (List.finRange 4).filter fun i => decide (i ≠ tl_idx ∧ i ≠ br_idx)

/-- `board_geometry.order_corners`: order 4 points as
`[top-left, top-right, bottom-right, bottom-left]`.  The Python indexes
`remaining[0]` and `remaining[1]`, which always exist (at most two of the
four indices are removed); `headD 0` defaults are therefore unreachable. -/
def order_corners (c : Fin 4 → ℚ × ℚ) : List (ℚ × ℚ) :=
  let tl_idx := argmin4 fun i => psum (c i)
  let br_idx := argmax4 fun i => psum (c i)
  let rem := remainingOf tl_idx br_idx
  let r0 := rem.headD 0
  let r1 := (rem.drop 1).headD 0
  if pdiff (c r0) > pdiff (c r1) then
    [c tl_idx, c r0, c br_idx, c r1]
  else
    [c tl_idx, c r1, c br_idx, c r0]

/-! ## board_geometry.map_pieces_to_squares -/

/-- A piece detection record: keys `class_name`, `bbox`, `confidence`. -/
structure Detection where
  class_name : Str
  x1 : ℚ
  y1 : ℚ
  x2 : ℚ
  y2 : ℚ
  confidence : ℚ
deriving DecidableEq

/-- A bounding box `[x1, y1, x2, y2]` (the board's, in image pixels). -/
structure BBox where
  x1 : ℚ
  y1 : ℚ
  x2 : ℚ
  y2 : ℚ
deriving DecidableEq

/-- Python `int(...)`: truncation toward zero. -/
def pyInt (q : ℚ) : ℤ := if 0 ≤ q then ⌊q⌋ else ⌈q⌉

/-- `cv2.perspectiveTransform` on a single point: projective action of
the 3x3 matrix `M`. -/
def perspectiveTransformPt (M : Fin 3 → Fin 3 → ℚ) (x y : ℚ) : ℚ × ℚ :=
  let w := M 2 0 * x + M 2 1 * y + M 2 2
  ((M 0 0 * x + M 0 1 * y + M 0 2) / w, (M 1 0 * x + M 1 1 * y + M 1 2) / w)

/-- `"abcdefgh"`. -/
def fileChars : Str := "abcdefgh".data

/-- The grid-bucketing step of `map_pieces_to_squares` (lines computing
`col`, `row`, `file_char`, `rank_char`, `square` from a warped point). -/
def squareOfWarped (wx wy : ℚ) : Str :=
  let col := min (max (pyInt (wx / 80)) 0) 7
  let row := min (max (pyInt (wy / 80)) 0) 7
  fileChars.getD col.toNat 'a' :: (Int.repr (8 - row)).data

/-- The square computed for one detection inside
`board_geometry.map_pieces_to_squares`: centroid, translate by the board
origin, perspective-warp, bucket into the 8x8 grid. -/
def detSquare (board_bbox : BBox) (M : Fin 3 → Fin 3 → ℚ) (det : Detection) : Str :=
  let cx := (det.x1 + det.x2) / 2
  let cy := (det.y1 + det.y2) / 2
  let cx_rel := cx - board_bbox.x1
  let cy_rel := cy - board_bbox.y1
  let wp := perspectiveTransformPt M cx_rel cy_rel
  let col := min (max (pyInt (wp.1 / 80)) 0) 7
  let row := min (max (pyInt (wp.2 / 80)) 0) 7
  fileChars.getD col.toNat 'a' :: (Int.repr (8 - row)).data

/-- Point update of a dict modelled as a function into `Option`. -/
def updateFn {α : Type} (m : Str → Option α) (k : Str) (v : α) : Str → Option α :=
  fun s => if s = k then some v else m s

/-- The loop body of `board_geometry.map_pieces_to_squares`.  The two
Python dicts `square_map` and `square_conf` are always updated together
on exactly the same keys, so they are carried as one map to (class name,
confidence) pairs; `square_map` is the first projection.  The update
happens when `square not in square_map or conf > square_conf[square]`. -/
def mapStep (board_bbox : BBox) (M : Fin 3 → Fin 3 → ℚ)
    (occ : Str → Option (Str × ℚ)) (det : Detection) : Str → Option (Str × ℚ) :=
  let square := detSquare board_bbox M det
  match occ square with
  | none => updateFn occ square (det.class_name, det.confidence)
  | some pc =>
      if det.confidence > pc.2 then
        updateFn occ square (det.class_name, det.confidence)
      else occ

/-- `board_geometry.map_pieces_to_squares`: fold the loop body over the
detections, starting from empty dicts. -/
def map_pieces_to_squares (dets : List Detection) (board_bbox : BBox)
    (M : Fin 3 → Fin 3 → ℚ) : Str → Option (Str × ℚ) :=
  dets.foldl (mapStep board_bbox M) (fun _ => none)

/-! ## detector.full_pipeline: ad-hoc square/confidence reconstruction -/

/-- The square recomputed for one detection by the ad-hoc pass of
`detector.full_pipeline` ("Replicate the mapping logic to find which
square this centre lands on"). -/
def adhocSquare (board_bbox : BBox) (M : Fin 3 → Fin 3 → ℚ) (det : Detection) : Str :=
  let cx := (det.x1 + det.x2) / 2
  let cy := (det.y1 + det.y2) / 2
  let cx_rel := cx - board_bbox.x1
  let cy_rel := cy - board_bbox.y1
  let wp := perspectiveTransformPt M cx_rel cy_rel
  let col := min (max (pyInt (wp.1 / 80)) 0) 7
  let row := min (max (pyInt (wp.2 / 80)) 0) 7
  fileChars.getD col.toNat 'a' :: (Int.repr (8 - row)).data

/-- The loop body of the `square_confidence` reconstruction in
`detector.full_pipeline`: keep the highest confidence per square, first
detection kept on ties (`if sq not in square_confidence or
det["confidence"] > square_confidence[sq]`). -/
def confStep (board_bbox : BBox) (M : Fin 3 → Fin 3 → ℚ)
    (sc : Str → Option ℚ) (det : Detection) : Str → Option ℚ :=
  let sq := adhocSquare board_bbox M det
  match sc sq with
  | none => updateFn sc sq det.confidence
  | some c => if det.confidence > c then updateFn sc sq det.confidence else sc

/-- The `square_confidence` dict built by `detector.full_pipeline`. -/
def square_confidence (dets : List Detection) (board_bbox : BBox)
    (M : Fin 3 → Fin 3 → ℚ) : Str → Option ℚ :=
  dets.foldl (confStep board_bbox M) (fun _ => none)

/-- Round half to even (the rounding of Python's `round`). -/
def roundHalfEven (q : ℚ) : ℤ :=
  if q - ⌊q⌋ < 1/2 then ⌊q⌋
  else if 1/2 < q - ⌊q⌋ then ⌊q⌋ + 1
  else if ⌊q⌋ % 2 = 0 then ⌊q⌋ else ⌊q⌋ + 1

/-- Python `round(x, 4)`. -/
def round4 (q : ℚ) : ℚ := (roundHalfEven (q * 10000) : ℚ) / 10000

/-- The confidence placed in the pipeline's piece list for a square:
`round(square_confidence.get(sq_name, 0.0), 4)`. -/
def reported_confidence (dets : List Detection) (board_bbox : BBox)
    (M : Fin 3 → Fin 3 → ℚ) (sq : Str) : ℚ :=
  round4 ((square_confidence dets board_bbox M sq).getD 0)

/-! ## fen_generator.PIECE_TO_FEN and generate_fen -/

/-- The 12-entry class-name-to-FEN-character table `PIECE_TO_FEN`. -/
def PIECE_TO_FEN : List (Str × Char) :=
  [("white_king".data,   'K'),
   ("white_queen".data,  'Q'),
   ("white_rook".data,   'R'),
   ("white_bishop".data, 'B'),
   ("white_knight".data, 'N'),
   ("white_pawn".data,   'P'),
   ("black_king".data,   'k'),
   ("black_queen".data,  'q'),
   ("black_rook".data,   'r'),
   ("black_bishop".data, 'b'),
   ("black_knight".data, 'n'),
   ("black_pawn".data,   'p')]

/-- The 12 recognized piece class names (the keys of `PIECE_TO_FEN`). -/
def labels12 : List Str := PIECE_TO_FEN.map Prod.fst

/-- `PIECE_TO_FEN.get(piece_class, "?")`. -/
def pieceChar (piece_class : Str) : Char :=
  (PIECE_TO_FEN.lookup piece_class).getD '?'

/-- Flushing the accumulated `empty_count` as `str(empty_count)` when it
is positive (`if empty_count > 0: rank_str += str(empty_count)`). -/
def flushEmpties (empty_count : Nat) : Str :=
  if empty_count > 0 then (Nat.repr empty_count).data else []

/-- The inner file loop of `generate_fen` for one rank, presented on the
list of cells (the `Option`al FEN character of each square, file a
through h): run-length encode empty cells, flushing the accumulated
count before each piece character and at the end of the rank. -/
def rle : List (Option Char) → Nat → Str
  | [], empty_count => flushEmpties empty_count
  | some ch :: rest, empty_count => flushEmpties empty_count ++ ch :: rle rest 0
  | none :: rest, empty_count => rle rest (empty_count + 1)

/-- The cells of one rank: for file a through h, the FEN character of
the occupant (if any) of square `file_char + str(rank_num)`. -/
def cellsOf (square_map : Str → Option Str) (rank_num : Nat) : List (Option Char) :=
  fileChars.map fun fc => (square_map (fc :: (Nat.repr rank_num).data)).map pieceChar

/-- One rank string of `generate_fen`. -/
def rank_str (square_map : Str → Option Str) (rank_num : Nat) : Str :=
  rle (cellsOf square_map rank_num) 0

/-- The rank strings for rank 8 down to rank 1 (`range(8, 0, -1)`). -/
def ranksOfMap (square_map : Str → Option Str) : List Str :=
  ((List.range 8).map fun k => 8 - k).map (rank_str square_map)

/-- Python `sep.join(parts)` on character lists. -/
def joinChar (sep : Char) : List Str → Str
  | [] => []
  | [s] => s
  | s :: rest => s ++ sep :: joinChar sep rest

/-- `fen_generator.generate_fen`: the board field followed by the fixed
auxiliary fields `w KQkq - 0 1`. -/
def generate_fen (square_map : Str → Option Str) : Str :=
  joinChar '/' (ranksOfMap square_map) ++ (" w KQkq - 0 1").data

/-! ## fen_generator.validate_fen -/

/-- Python `s.split(sep)` for a one-character separator: always returns
at least one (possibly empty) part. -/
def splitChar (sep : Char) : Str → List Str
  | [] => [[]]
  | c :: rest =>
    if c = sep then [] :: splitChar sep rest
    else
      match splitChar sep rest with
      | [] => [[c]]
      | t :: ts => (c :: t) :: ts

/-- `_VALID_BOARD_CHARS = set("rnbqkpRNBQKP12345678")`. -/
def validBoardChars : Str := "rnbqkpRNBQKP12345678".data

/-- `fen.split(" ")[0] if " " in fen else fen`. -/
def boardPartOf (fen : Str) : Str :=
  if ' ' ∈ fen then (splitChar ' ' fen).headD [] else fen

/-- Check 5 of `validate_fen`: exactly 8 slash-separated ranks. -/
def rankCountErrors (ranks : List Str) : List Str :=
  if ranks.length ≠ 8 then
    [("Expected 8 ranks separated by '/', found ").data
      ++ (Nat.repr ranks.length).data ++ ['.']]
  else []

/-- Check 7 of `validate_fen`: one error per character outside the legal
set (slashes excepted). -/
def charErrors (board_part : Str) : List Str :=
  board_part.filterMap fun ch =>
    if ch ≠ '/' ∧ ch ∉ validBoardChars then
      some (("Invalid character '").data ++ [ch] ++ ("' in board portion.").data)
    else none

/-- The squares one character contributes to a rank: digits count their
value, any other character counts 1. -/
def charSquares (ch : Char) : Nat := if ch.isDigit then ch.toNat - 48 else 1

/-- The square total of one rank string. -/
def rankTotal (rank : Str) : Nat := (rank.map charSquares).sum

/-- Check 6 of `validate_fen`: each rank must sum to exactly 8 squares
(`for i, rank in enumerate(ranks)`; the message shows rank `8 - i`). -/
def rankSumErrors (ranks : List Str) : List Str :=
  ranks.enum.filterMap fun p =>
    if rankTotal p.2 ≠ 8 then
      some (("Rank ").data ++ (Int.repr (8 - (p.1 : ℤ))).data
        ++ (" ('").data ++ p.2 ++ ("') sums to ").data
        ++ (Nat.repr (rankTotal p.2)).data ++ (" squares; expected 8.").data)
    else none

/-- Checks 1 and 2 of `validate_fen`: exactly one king of each color. -/
def kingErrors (board_part : Str) : List Str :=
  (if board_part.count 'K' ≠ 1 then
    [("Expected exactly 1 white king ('K'), found ").data
      ++ (Nat.repr (board_part.count 'K')).data ++ ['.']]
   else []) ++
  (if board_part.count 'k' ≠ 1 then
    [("Expected exactly 1 black king ('k'), found ").data
      ++ (Nat.repr (board_part.count 'k')).data ++ ['.']]
   else [])

/-- Checks 3 and 4 of `validate_fen`: at most 8 pawns of each color. -/
def pawnErrors (board_part : Str) : List Str :=
  (if board_part.count 'P' > 8 then
    [("White has ").data ++ (Nat.repr (board_part.count 'P')).data
      ++ (" pawns; maximum is 8.").data]
   else []) ++
  (if board_part.count 'p' > 8 then
    [("Black has ").data ++ (Nat.repr (board_part.count 'p')).data
      ++ (" pawns; maximum is 8.").data]
   else [])

/-- The `{"valid": ..., "errors": ...}` result of `validate_fen`. -/
structure ValidationResult where
  valid : Bool
  errors : List Str
deriving DecidableEq

/-- `fen_generator.validate_fen`: all checks performed independently, in
program order; valid iff no error was collected. -/
def validate_fen (fen : Str) : ValidationResult :=
  let board_part := boardPartOf fen
  let ranks := splitChar '/' board_part
  let errors :=
    rankCountErrors ranks ++ charErrors board_part ++ rankSumErrors ranks
      ++ kingErrors board_part ++ pawnErrors board_part
  ⟨errors.length == 0, errors⟩

/-! ## Derived vocabulary used by the claims -/

/-- The 64 valid square names, rank 8 down to 1, file a through h. -/
def squares64 : List Str :=
  ((List.range 8).map fun k => 8 - k).flatMap fun rank =>
    fileChars.map fun fc => fc :: (Nat.repr rank).data

/-- How many of the 64 squares a map sends to a given class name. -/
def countLabel (square_map : Str → Option Str) (label : Str) : Nat :=
  (squares64.filter fun s => square_map s == some label).length

/-- Classifier for the validator's rank-count message (its first ten
characters are shared by no other message the validator emits). -/
def isRankCountMsg (e : Str) : Bool := decide (e.take 10 = ("Expected 8").data)

/-! ## Concrete inputs used to instantiate the theorems -/

/-- The board bounding box `[0, 0, 0, 0]`. -/
def bb0 : BBox := ⟨0, 0, 0, 0⟩

/-- The identity 3x3 transform. -/
def idM : Fin 3 → Fin 3 → ℚ := fun i j => if i = j then 1 else 0

/-- A white-queen detection at the origin with confidence 0.9. -/
def detA : Detection := ⟨("white_queen").data, 0, 0, 0, 0, 9/10⟩

/-- A white-rook detection at the origin with confidence 0.6. -/
def detB : Detection := ⟨("white_rook").data, 0, 0, 0, 0, 6/10⟩

/-- A white-bishop detection at the origin with confidence 0.7. -/
def detC : Detection := ⟨("white_bishop").data, 0, 0, 0, 0, 7/10⟩

/-- A white-knight detection at the origin with confidence 0.7. -/
def detD : Detection := ⟨("white_knight").data, 0, 0, 0, 0, 7/10⟩

/-- A white-king detection at the origin with confidence 0.123456, a
value that is not representable in 4 decimal places. -/
def detK : Detection := ⟨("white_king").data, 0, 0, 0, 0, 123456/1000000⟩

/-- The axis-aligned square of the spec's corner-ordering example:
`[(0,0), (100,0), (100,100), (0,100)]`. -/
def sq100 : Fin 4 → ℚ × ℚ
  | 0 => (0, 0)
  | 1 => (100, 0)
  | 2 => (100, 100)
  | 3 => (0, 100)

/-- Four distinct collinear points whose two middle points tie in x - y. -/
def cexC5 : Fin 4 → ℚ × ℚ
  | 0 => (0, 0)
  | 1 => (1, 1)
  | 2 => (2, 2)
  | 3 => (3, 3)

/-- Four pairwise-distinct points whose first two tie in x + y. -/
def c6a : Fin 4 → ℚ × ℚ
  | 0 => (0, 1)
  | 1 => (1, 0)
  | 2 => (5, 5)
  | 3 => (10, 10)

/-- The same four points with the first two swapped. -/
def c6b : Fin 4 → ℚ × ℚ
  | 0 => (1, 0)
  | 1 => (0, 1)
  | 2 => (5, 5)
  | 3 => (10, 10)

/-- Four points with a tie in x + y for the minimum (indices 0 and 1)
and a tie in x - y between the two remaining points (indices 1 and 3). -/
def cW5 : Fin 4 → ℚ × ℚ
  | 0 => (1, 0)
  | 1 => (0, 1)
  | 2 => (5, 5)
  | 3 => (2, 3)

/-- An occupancy map with a white king on e1 and a black king on e8. -/
def twoKings : Str → Option Str := fun s =>
  if s = ("e1").data then some ("white_king").data
  else if s = ("e8").data then some ("black_king").data
  else none

/-! ## Theorems -/

/-- Every square of the 8x8 grid produced by clamped bucketing is one of
the 64 valid names. -/
theorem squareOfWarped_mem (wx wy : ℚ) : squareOfWarped wx wy ∈ squares64 := by
  have key : ∀ a b : ℤ,
      (fileChars.getD (min (max a 0) 7).toNat 'a'
        :: (Int.repr (8 - min (max b 0) 7)).data) ∈ squares64 := by
    intro a b
    have ha : min (max a 0) 7 = 0 ∨ min (max a 0) 7 = 1 ∨ min (max a 0) 7 = 2 ∨
        min (max a 0) 7 = 3 ∨ min (max a 0) 7 = 4 ∨ min (max a 0) 7 = 5 ∨
        min (max a 0) 7 = 6 ∨ min (max a 0) 7 = 7 := by omega
    have hb : min (max b 0) 7 = 0 ∨ min (max b 0) 7 = 1 ∨ min (max b 0) 7 = 2 ∨
        min (max b 0) 7 = 3 ∨ min (max b 0) 7 = 4 ∨ min (max b 0) 7 = 5 ∨
        min (max b 0) 7 = 6 ∨ min (max b 0) 7 = 7 := by omega
    rcases ha with h | h | h | h | h | h | h | h <;> rw [h] <;>
      (rcases hb with h' | h' | h' | h' | h' | h' | h' | h' <;> rw [h'] <;> decide)
  exact key (pyInt (wx / 80)) (pyInt (wy / 80))

/-- After clamping into [0, 7], Python truncation toward zero and
mathematical floor agree. -/
theorem clamp_pyInt_eq_clamp_floor (q : ℚ) :
    min (max (pyInt q) 0) 7 = min (max ⌊q⌋ 0) 7 := by
  unfold pyInt
  split_ifs with h
  · rfl
  · have hq : q ≤ 0 := le_of_lt (not_le.mp h)
    have hc : ⌈q⌉ ≤ 0 := by exact_mod_cast Int.ceil_le.mpr (by exact_mod_cast hq)
    have hf : ⌊q⌋ ≤ 0 := le_trans (Int.floor_le_ceil q) hc
    omega

/-- C7: the bucketing of SquareMapper is total: the code's
`min(max(int(wx / 80), 0), 7)` equals `clamp(floor(wx/80), 0, 7)`, every
warped centroid lands in exactly one of the 64 squares, the normalized
points (0,0), (639,639) and (320,320) map to "a8", "h1" and "e4", and an
empty detection list yields an empty occupancy map. -/
theorem squareMapper_bucketing_total :
    (∀ wx : ℚ, min (max (pyInt (wx / 80)) 0) 7 = min (max ⌊wx / 80⌋ 0) 7) ∧
    (∀ wx wy : ℚ, squareOfWarped wx wy ∈ squares64) ∧
    squareOfWarped 0 0 = ("a8").data ∧
    squareOfWarped 639 639 = ("h1").data ∧
    squareOfWarped 320 320 = ("e4").data ∧
    ∀ (board_bbox : BBox) (M : Fin 3 → Fin 3 → ℚ),
      map_pieces_to_squares [] board_bbox M = fun _ => none := by
  refine ⟨fun wx => clamp_pyInt_eq_clamp_floor (wx / 80), squareOfWarped_mem,
    ?_, ?_, ?_, fun _ _ => rfl⟩
  · have h : pyInt ((0 : ℚ) / 80) = 0 := by norm_num [pyInt]
    rw [squareOfWarped, h]; decide
  · have h : pyInt ((639 : ℚ) / 80) = 7 := by
      have : ⌊(639 : ℚ) / 80⌋ = 7 := by
        rw [Int.floor_eq_iff]; norm_num
      norm_num [pyInt, this]
    rw [squareOfWarped, h]; decide
  · have h : pyInt ((320 : ℚ) / 80) = 4 := by norm_num [pyInt]
    rw [squareOfWarped, h]; decide

/-- C9: FEN generation on the empty occupancy map yields the canonical
empty-board FEN, and every generated FEN ends with the fixed auxiliary
fields " w KQkq - 0 1". -/
theorem generate_fen_defaults :
    generate_fen (fun _ => none) = ("8/8/8/8/8/8/8/8 w KQkq - 0 1").data ∧
    ∀ square_map : Str → Option Str,
      ∃ board : Str, generate_fen square_map = board ++ (" w KQkq - 0 1").data :=
  ⟨by decide, fun m => ⟨joinChar '/' (ranksOfMap m), rfl⟩⟩

/-- C1: conflict resolution in SquareMapper.  When two detections map to
the same square, the second overwrites the first exactly when its
confidence is strictly higher; otherwise (including equal confidence)
the earlier-processed detection's label and confidence are retained. -/
theorem squareMapper_conflict_resolution (board_bbox : BBox) (M : Fin 3 → Fin 3 → ℚ)
    (A B : Detection) (hsq : detSquare board_bbox M B = detSquare board_bbox M A) :
    (B.confidence > A.confidence →
      map_pieces_to_squares [A, B] board_bbox M (detSquare board_bbox M A)
        = some (B.class_name, B.confidence)) ∧
    (¬ B.confidence > A.confidence →
      map_pieces_to_squares [A, B] board_bbox M (detSquare board_bbox M A)
        = some (A.class_name, A.confidence)) := by
  constructor <;> intro hc <;>
    simp [map_pieces_to_squares, mapStep, updateFn, hsq, hc]

/-- Witness for C1: confidences 0.9 then 0.6 keep the 0.9 label, 0.6
then 0.9 keep the 0.9 label, and equal confidences 0.7/0.7 keep the
earlier-processed label. -/
theorem squareMapper_conflict_witness :
    (¬ detB.confidence > detA.confidence ∧
      map_pieces_to_squares [detA, detB] bb0 idM (detSquare bb0 idM detA)
        = some (detA.class_name, detA.confidence)) ∧
    (detA.confidence > detB.confidence ∧
      map_pieces_to_squares [detB, detA] bb0 idM (detSquare bb0 idM detB)
        = some (detA.class_name, detA.confidence)) ∧
    (¬ detD.confidence > detC.confidence ∧
      map_pieces_to_squares [detC, detD] bb0 idM (detSquare bb0 idM detC)
        = some (detC.class_name, detC.confidence)) := by
  have h1 : ¬ detB.confidence > detA.confidence := by norm_num [detA, detB]
  have h2 : detA.confidence > detB.confidence := by norm_num [detA, detB]
  have h3 : ¬ detD.confidence > detC.confidence := by norm_num [detC, detD]
  exact ⟨⟨h1, (squareMapper_conflict_resolution bb0 idM detA detB rfl).2 h1⟩,
    ⟨h2, (squareMapper_conflict_resolution bb0 idM detB detA rfl).1 h2⟩,
    ⟨h3, (squareMapper_conflict_resolution bb0 idM detC detD rfl).2 h3⟩⟩

/-- The occupancy fold of `map_pieces_to_squares` and the confidence fold
of the pipeline's ad-hoc pass stay in lock-step: the stored confidence is
the second component of the stored pair, square by square. -/
theorem conf_invariant (board_bbox : BBox) (M : Fin 3 → Fin 3 → ℚ) (dets : List Detection) :
    ∀ (occ : Str → Option (Str × ℚ)) (sc : Str → Option ℚ),
      (∀ s, (occ s).map Prod.snd = sc s) →
      ∀ s, ((dets.foldl (mapStep board_bbox M) occ) s).map Prod.snd
        = (dets.foldl (confStep board_bbox M) sc) s := by
  induction dets with
  | nil => intro occ sc h s; exact h s
  | cons d rest ih =>
    intro occ sc h s
    simp only [List.foldl_cons]
    refine ih _ _ ?_ s
    intro t
    have hadet : adhocSquare board_bbox M d = detSquare board_bbox M d := rfl
    have hd := h (detSquare board_bbox M d)
    cases hocc : occ (detSquare board_bbox M d) with
    | none =>
      rw [hocc] at hd
      simp only [Option.map_none'] at hd
      simp only [mapStep, confStep, hadet, hocc, ← hd]
      by_cases ht : t = detSquare board_bbox M d <;> simp [updateFn, ht, h t]
    | some pc =>
      rw [hocc] at hd
      simp only [Option.map_some'] at hd
      simp only [mapStep, confStep, hadet, hocc, ← hd]
      by_cases hgt : d.confidence > pc.2
      · simp only [if_pos hgt]
        by_cases ht : t = detSquare board_bbox M d <;> simp [updateFn, ht, h t]
      · simp only [if_neg hgt]
        exact h t

/-- C3 (amended): the ad-hoc square reconstruction in the pipeline agrees
with SquareMapper's square for every detection, and the confidence the
pipeline reports for an occupied square is the confidence of the
detection that won that square, rounded to 4 decimal places. -/
theorem pipeline_square_refinement (board_bbox : BBox) (M : Fin 3 → Fin 3 → ℚ) :
    (∀ det : Detection, adhocSquare board_bbox M det = detSquare board_bbox M det) ∧
    ∀ (dets : List Detection) (sq l : Str) (c : ℚ),
      map_pieces_to_squares dets board_bbox M sq = some (l, c) →
      reported_confidence dets board_bbox M sq = round4 c := by
  refine ⟨fun det => rfl, ?_⟩
  intro dets sq l c h
  have key := conf_invariant board_bbox M dets (fun _ => none) (fun _ => none)
    (fun _ => rfl) sq
  rw [show dets.foldl (mapStep board_bbox M) (fun _ => none)
      = map_pieces_to_squares dets board_bbox M from rfl, h] at key
  simp only [Option.map_some'] at key
  have key' : some c = square_confidence dets board_bbox M sq := key
  rw [reported_confidence, ← key']
  rfl

/-- A detection whose bounding box is the origin maps to square a8 under
the identity transform and the zero board box. -/
theorem detSquare_detK : detSquare bb0 idM detK = ("a8").data := by
  have hw : perspectiveTransformPt idM 0 0 = (0, 0) := by
    simp [perspectiveTransformPt, idM]
  have hcx : (detK.x1 + detK.x2) / 2 - bb0.x1 = 0 := by norm_num [detK, bb0]
  have hcy : (detK.y1 + detK.y2) / 2 - bb0.y1 = 0 := by norm_num [detK, bb0]
  rw [detSquare, hcx, hcy, hw]
  have hz : pyInt ((0 : ℚ) / 80) = 0 := by norm_num [pyInt]
  simp only [hz]
  decide

/-- The single-detection occupancy map of `detK` holds the white king at
a8 with its raw confidence. -/
theorem mapK_eval :
    map_pieces_to_squares [detK] bb0 idM ("a8").data
      = some (("white_king").data, 123456/1000000) := by
  show mapStep bb0 idM (fun _ => none) detK ("a8").data = _
  simp only [mapStep, updateFn, detSquare_detK, if_true, eq_self_iff_true]
  rfl

/-- C3 counterexample: the pipeline's reported confidence for square a8
is `round(0.123456, 4) = 0.1235`, not the 0.123456 confidence of the
detection that won the square, so the reported confidence does not equal
the winning detection's confidence. -/
theorem pipeline_confidence_cex :
    map_pieces_to_squares [detK] bb0 idM ("a8").data
      = some (("white_king").data, 123456/1000000) ∧
    reported_confidence [detK] bb0 idM ("a8").data ≠ 123456/1000000 := by
  refine ⟨mapK_eval, ?_⟩
  have hsc : square_confidence [detK] bb0 idM ("a8").data
      = some (123456/1000000 : ℚ) := by
    show confStep bb0 idM (fun _ => none) detK ("a8").data = _
    have hadet : adhocSquare bb0 idM detK = ("a8").data := detSquare_detK
    simp only [confStep, updateFn, hadet, if_true, eq_self_iff_true]
    rfl
  rw [reported_confidence, hsc]
  have hf : ⌊(123456 : ℚ) / 1000000 * 10000⌋ = 1234 := by
    rw [Int.floor_eq_iff]; norm_num
  rw [show ((some (123456/1000000 : ℚ)).getD 0) = 123456/1000000 from rfl]
  rw [round4, roundHalfEven, hf]
  rw [if_neg (by norm_num), if_pos (by norm_num)]
  norm_num

/-- Witness for C3: on the concrete single-detection input the pipeline
reports for a8 exactly the winning confidence rounded to 4 decimals. -/
theorem pipeline_refinement_witness :
    map_pieces_to_squares [detK] bb0 idM ("a8").data
      = some (("white_king").data, 123456/1000000) ∧
    reported_confidence [detK] bb0 idM ("a8").data = round4 (123456/1000000) :=
  ⟨mapK_eval, (pipeline_square_refinement bb0 idM).2 [detK] ("a8").data
    ("white_king").data (123456/1000000) mapK_eval⟩

/-- `np.argmin` returns the first index attaining the minimum. -/
theorem argmin4_first (f : Fin 4 → ℚ) (i : Fin 4)
    (hle : ∀ j, f i ≤ f j) (hlt : ∀ j, j < i → f i < f j) :
    argmin4 f = i := by
  have hi : i = 0 ∨ i = 1 ∨ i = 2 ∨ i = 3 := by omega
  rcases hi with rfl | rfl | rfl | rfl
  · simp only [argmin4, updMin]
    rw [if_neg (not_lt.2 (hle 1)), if_neg (not_lt.2 (hle 2)), if_neg (not_lt.2 (hle 3))]
  · simp only [argmin4, updMin]
    rw [if_pos (hlt 0 (by decide)), if_neg (not_lt.2 (hle 2)), if_neg (not_lt.2 (hle 3))]
  · simp only [argmin4, updMin]
    by_cases h01 : f 1 < f 0
    · rw [if_pos h01, if_pos (hlt 1 (by decide)), if_neg (not_lt.2 (hle 3))]
    · rw [if_neg h01, if_pos (hlt 0 (by decide)), if_neg (not_lt.2 (hle 3))]
  · simp only [argmin4, updMin]
    by_cases h01 : f 1 < f 0
    · rw [if_pos h01]
      by_cases h12 : f 2 < f 1
      · rw [if_pos h12, if_pos (hlt 2 (by decide))]
      · rw [if_neg h12, if_pos (hlt 1 (by decide))]
    · rw [if_neg h01]
      by_cases h02 : f 2 < f 0
      · rw [if_pos h02, if_pos (hlt 2 (by decide))]
      · rw [if_neg h02, if_pos (hlt 0 (by decide))]

/-- `np.argmax` returns the first index attaining the maximum. -/
theorem argmax4_first (f : Fin 4 → ℚ) (i : Fin 4)
    (hge : ∀ j, f j ≤ f i) (hgt : ∀ j, j < i → f j < f i) :
    argmax4 f = i := by
  have hi : i = 0 ∨ i = 1 ∨ i = 2 ∨ i = 3 := by omega
  rcases hi with rfl | rfl | rfl | rfl
  · simp only [argmax4, updMax]
    rw [if_neg (not_lt.2 (hge 1)), if_neg (not_lt.2 (hge 2)), if_neg (not_lt.2 (hge 3))]
  · simp only [argmax4, updMax]
    rw [if_pos (hgt 0 (by decide)), if_neg (not_lt.2 (hge 2)), if_neg (not_lt.2 (hge 3))]
  · simp only [argmax4, updMax]
    by_cases h01 : f 0 < f 1
    · rw [if_pos h01, if_pos (hgt 1 (by decide)), if_neg (not_lt.2 (hge 3))]
    · rw [if_neg h01, if_pos (hgt 0 (by decide)), if_neg (not_lt.2 (hge 3))]
  · simp only [argmax4, updMax]
    by_cases h01 : f 0 < f 1
    · rw [if_pos h01]
      by_cases h12 : f 1 < f 2
      · rw [if_pos h12, if_pos (hgt 2 (by decide))]
      · rw [if_neg h12, if_pos (hgt 1 (by decide))]
    · rw [if_neg h01]
      by_cases h02 : f 0 < f 2
      · rw [if_pos h02, if_pos (hgt 2 (by decide))]
      · rw [if_neg h02, if_pos (hgt 0 (by decide))]

/-- When the top-left and bottom-right indices are distinct, the two
remaining indices, in increasing input order, are what the filter keeps. -/
theorem remainingOf_eq (i₀ i₂ u₀ u₁ : Fin 4)
    (h : i₀ ≠ i₂ ∧ u₀ ≠ i₀ ∧ u₀ ≠ i₂ ∧ u₁ ≠ i₀ ∧ u₁ ≠ i₂ ∧ u₀ < u₁) :
    remainingOf i₀ i₂ = [u₀, u₁] := by
  revert h
  revert i₀ i₂ u₀ u₁
  decide

/-- Unfolding `order_corners` once the argmin, argmax and remaining pair
are known. -/
theorem order_corners_spec (c : Fin 4 → ℚ × ℚ) (i₀ i₂ u₀ u₁ : Fin 4)
    (hmin : argmin4 (fun i => psum (c i)) = i₀)
    (hmax : argmax4 (fun i => psum (c i)) = i₂)
    (hrem : remainingOf i₀ i₂ = [u₀, u₁]) :
    order_corners c =
      if pdiff (c u₀) > pdiff (c u₁) then [c i₀, c u₀, c i₂, c u₁]
      else [c i₀, c u₁, c i₂, c u₀] := by
  simp only [order_corners, hmin, hmax, hrem, List.headD_cons, List.drop_succ_cons,
    List.drop_zero]

/-- Characterization of `order_corners` when the minimizer and maximizer
of x + y are unique and the two remaining points differ in x - y: the
output is [s-minimizer, larger-diff remaining, s-maximizer, smaller-diff
remaining]. -/
theorem order_corners_char (c : Fin 4 → ℚ × ℚ) (i₀ i₂ r₀ r₁ : Fin 4)
    (h02 : i₀ ≠ i₂) (h0a : r₀ ≠ i₀) (h0b : r₀ ≠ i₂) (h1a : r₁ ≠ i₀) (h1b : r₁ ≠ i₂)
    (hab : r₀ ≠ r₁)
    (hmin : ∀ j, j ≠ i₀ → psum (c i₀) < psum (c j))
    (hmax : ∀ j, j ≠ i₂ → psum (c j) < psum (c i₂))
    (hd : pdiff (c r₁) < pdiff (c r₀)) :
    order_corners c = [c i₀, c r₀, c i₂, c r₁] := by
  have ha : argmin4 (fun i => psum (c i)) = i₀ :=
    argmin4_first _ i₀
      (fun j => by
        rcases eq_or_ne j i₀ with h | h
        · subst h; exact le_rfl
        · exact (hmin j h).le)
      (fun j hj => hmin j (ne_of_lt hj))
  have hb : argmax4 (fun i => psum (c i)) = i₂ :=
    argmax4_first _ i₂
      (fun j => by
        rcases eq_or_ne j i₂ with h | h
        · subst h; exact le_rfl
        · exact (hmax j h).le)
      (fun j hj => hmax j (ne_of_lt hj))
  rcases lt_or_gt_of_ne hab with hlt | hgt
  · rw [order_corners_spec c i₀ i₂ r₀ r₁ ha hb
      (remainingOf_eq i₀ i₂ r₀ r₁ ⟨h02, h0a, h0b, h1a, h1b, hlt⟩), if_pos hd]
  · rw [order_corners_spec c i₀ i₂ r₁ r₀ ha hb
      (remainingOf_eq i₀ i₂ r₁ r₀ ⟨h02, h1a, h1b, h0a, h0b, hgt⟩),
      if_neg (not_lt.2 hd.le)]

/-- C4: when the minimizer of x + y, the maximizer of x + y, and the
ordering by x - y of the two remaining points are all unique,
CornerOrderer places the s-minimizer at index 0, the larger-diff
remaining point at index 1, the s-maximizer at index 2 and the other
remaining point at index 3; and on the spec's axis-aligned square it
returns [(0,0), (100,0), (100,100), (0,100)] exactly. -/
theorem corner_order_invariant (c : Fin 4 → ℚ × ℚ) (i₀ i₂ r₀ r₁ : Fin 4)
    (h02 : i₀ ≠ i₂) (h0a : r₀ ≠ i₀) (h0b : r₀ ≠ i₂) (h1a : r₁ ≠ i₀) (h1b : r₁ ≠ i₂)
    (hab : r₀ ≠ r₁)
    (hmin : ∀ j, j ≠ i₀ → psum (c i₀) < psum (c j))
    (hmax : ∀ j, j ≠ i₂ → psum (c j) < psum (c i₂))
    (hd : pdiff (c r₁) < pdiff (c r₀)) :
    order_corners c = [c i₀, c r₀, c i₂, c r₁] ∧
    order_corners sq100 = [((0:ℚ), (0:ℚ)), (100, 0), (100, 100), (0, 100)] := by
  refine ⟨order_corners_char c i₀ i₂ r₀ r₁ h02 h0a h0b h1a h1b hab hmin hmax hd, ?_⟩
  have hm : ∀ j : Fin 4, j ≠ 0 → psum (sq100 0) < psum (sq100 j) := by
    intro j hj
    have : j = 0 ∨ j = 1 ∨ j = 2 ∨ j = 3 := by omega
    rcases this with rfl | rfl | rfl | rfl
    · exact absurd rfl hj
    all_goals norm_num [sq100, psum]
  have hM : ∀ j : Fin 4, j ≠ 2 → psum (sq100 j) < psum (sq100 2) := by
    intro j hj
    have : j = 0 ∨ j = 1 ∨ j = 2 ∨ j = 3 := by omega
    rcases this with rfl | rfl | rfl | rfl
    · norm_num [sq100, psum]
    · norm_num [sq100, psum]
    · exact absurd rfl hj
    · norm_num [sq100, psum]
  have hD : pdiff (sq100 3) < pdiff (sq100 1) := by norm_num [sq100, pdiff]
  rw [order_corners_char sq100 0 2 1 3 (by decide) (by decide) (by decide) (by decide)
    (by decide) (by decide) hm hM hD]
  rfl

/-- Witness for C4: the axis-aligned square instantiates the hypotheses
and the conclusion. -/
theorem corner_order_witness :
    order_corners sq100 = [sq100 0, sq100 1, sq100 2, sq100 3] := by
  have hm : ∀ j : Fin 4, j ≠ 0 → psum (sq100 0) < psum (sq100 j) := by
    intro j hj
    have : j = 0 ∨ j = 1 ∨ j = 2 ∨ j = 3 := by omega
    rcases this with rfl | rfl | rfl | rfl
    · exact absurd rfl hj
    all_goals norm_num [sq100, psum]
  have hM : ∀ j : Fin 4, j ≠ 2 → psum (sq100 j) < psum (sq100 2) := by
    intro j hj
    have : j = 0 ∨ j = 1 ∨ j = 2 ∨ j = 3 := by omega
    rcases this with rfl | rfl | rfl | rfl
    · norm_num [sq100, psum]
    · norm_num [sq100, psum]
    · exact absurd rfl hj
    · norm_num [sq100, psum]
  have hD : pdiff (sq100 3) < pdiff (sq100 1) := by norm_num [sq100, pdiff]
  exact (corner_order_invariant sq100 0 2 1 3 (by decide) (by decide) (by decide)
    (by decide) (by decide) (by decide) hm hM hD).1

/-- C5 (amended): ties in x + y are resolved by first occurrence for both
top-left and bottom-right, but a tie in x - y between the two remaining
points places the LATER-occurring of the two at index 1 (top-right) and
the earlier-occurring at index 3. -/
theorem corner_tiebreak (c : Fin 4 → ℚ × ℚ) (i₀ i₂ u₀ u₁ : Fin 4)
    (h02 : i₀ ≠ i₂) (h0a : u₀ ≠ i₀) (h0b : u₀ ≠ i₂) (h1a : u₁ ≠ i₀) (h1b : u₁ ≠ i₂)
    (hord : u₀ < u₁)
    (hminle : ∀ j, psum (c i₀) ≤ psum (c j))
    (hminfirst : ∀ j, j < i₀ → psum (c i₀) < psum (c j))
    (hmaxge : ∀ j, psum (c j) ≤ psum (c i₂))
    (hmaxfirst : ∀ j, j < i₂ → psum (c j) < psum (c i₂))
    (htie : pdiff (c u₀) = pdiff (c u₁)) :
    order_corners c = [c i₀, c u₁, c i₂, c u₀] := by
  have ha : argmin4 (fun i => psum (c i)) = i₀ :=
    argmin4_first _ i₀ hminle hminfirst
  have hb : argmax4 (fun i => psum (c i)) = i₂ :=
    argmax4_first _ i₂ hmaxge hmaxfirst
  rw [order_corners_spec c i₀ i₂ u₀ u₁ ha hb
    (remainingOf_eq i₀ i₂ u₀ u₁ ⟨h02, h0a, h0b, h1a, h1b, hord⟩),
    if_neg (not_lt.2 (le_of_eq htie))]

/-- C5 counterexample: on the collinear input (0,0), (1,1), (2,2), (3,3)
the two remaining points (1,1) and (2,2) tie in x - y, and the code
places the later-occurring (2,2) at index 1, not the first-occurring
(1,1) that the claim requires. -/
theorem corner_tiebreak_cex :
    order_corners cexC5 = [((0:ℚ), (0:ℚ)), (2, 2), (3, 3), (1, 1)] ∧
    order_corners cexC5 ≠ [((0:ℚ), (0:ℚ)), (1, 1), (3, 3), (2, 2)] := by
  have ha : argmin4 (fun i => psum (cexC5 i)) = 0 := by
    refine argmin4_first _ 0 ?_ ?_
    · intro j
      have : j = 0 ∨ j = 1 ∨ j = 2 ∨ j = 3 := by omega
      rcases this with rfl | rfl | rfl | rfl <;> norm_num [cexC5, psum]
    · intro j hj
      exact absurd hj (by omega)
  have hb : argmax4 (fun i => psum (cexC5 i)) = 3 := by
    refine argmax4_first _ 3 ?_ ?_
    · intro j
      have : j = 0 ∨ j = 1 ∨ j = 2 ∨ j = 3 := by omega
      rcases this with rfl | rfl | rfl | rfl <;> norm_num [cexC5, psum]
    · intro j hj
      have : j = 0 ∨ j = 1 ∨ j = 2 := by omega
      rcases this with rfl | rfl | rfl <;> norm_num [cexC5, psum]
  have heq : order_corners cexC5 = [cexC5 0, cexC5 2, cexC5 3, cexC5 1] := by
    rw [order_corners_spec cexC5 0 3 1 2 ha hb (by decide),
      if_neg (by norm_num [cexC5, pdiff])]
  refine ⟨by rw [heq]; rfl, ?_⟩
  rw [heq]
  intro h
  have h2 := congrArg (fun l => l.getD 1 (0, 0)) h
  simp only [List.getD, List.get?, cexC5] at h2
  norm_num [Prod.ext_iff] at h2

/-- Witness for C5: on (1,0), (0,1), (5,5), (2,3) the minimum of x + y is
tied between indices 0 and 1 and resolved to the first, and the remaining
points (0,1) and (2,3) tie in x - y, placing the later-occurring (2,3) at
index 1. -/
theorem corner_tiebreak_witness :
    order_corners cW5 = [cW5 0, cW5 3, cW5 2, cW5 1] := by
  have hminle : ∀ j : Fin 4, psum (cW5 0) ≤ psum (cW5 j) := by
    intro j
    have : j = 0 ∨ j = 1 ∨ j = 2 ∨ j = 3 := by omega
    rcases this with rfl | rfl | rfl | rfl <;> norm_num [cW5, psum]
  have hminfirst : ∀ j : Fin 4, j < 0 → psum (cW5 0) < psum (cW5 j) :=
    fun j hj => absurd hj (by omega)
  have hmaxge : ∀ j : Fin 4, psum (cW5 j) ≤ psum (cW5 2) := by
    intro j
    have : j = 0 ∨ j = 1 ∨ j = 2 ∨ j = 3 := by omega
    rcases this with rfl | rfl | rfl | rfl <;> norm_num [cW5, psum]
  have hmaxfirst : ∀ j : Fin 4, j < 2 → psum (cW5 j) < psum (cW5 2) := by
    intro j hj
    have : j = 0 ∨ j = 1 := by omega
    rcases this with rfl | rfl <;> norm_num [cW5, psum]
  have htie : pdiff (cW5 1) = pdiff (cW5 3) := by norm_num [cW5, pdiff]
  exact corner_tiebreak cW5 0 2 1 3 (by decide) (by decide) (by decide) (by decide)
    (by decide) (by decide) hminle hminfirst hmaxge hmaxfirst htie

/-- C6 (amended): permutation invariance of CornerOrderer holds when the
minimizer and maximizer of x + y are unique and the two remaining points
differ in x - y (4 pairwise-distinct points alone do not suffice). -/
theorem corner_perm_invariant (c : Fin 4 → ℚ × ℚ) (σ : Equiv.Perm (Fin 4))
    (i₀ i₂ r₀ r₁ : Fin 4)
    (h02 : i₀ ≠ i₂) (h0a : r₀ ≠ i₀) (h0b : r₀ ≠ i₂) (h1a : r₁ ≠ i₀) (h1b : r₁ ≠ i₂)
    (hab : r₀ ≠ r₁)
    (hmin : ∀ j, j ≠ i₀ → psum (c i₀) < psum (c j))
    (hmax : ∀ j, j ≠ i₂ → psum (c j) < psum (c i₂))
    (hd : pdiff (c r₁) < pdiff (c r₀)) :
    order_corners (fun i => c (σ i)) = order_corners c := by
  have e : ∀ i, c (σ (σ.symm i)) = c i := fun i => by rw [Equiv.apply_symm_apply]
  have hback : ∀ j i : Fin 4, j ≠ σ.symm i → σ j ≠ i := by
    intro j i hj h
    exact hj (by rw [← h, Equiv.symm_apply_apply])
  have h1 := order_corners_char (fun i => c (σ i)) (σ.symm i₀) (σ.symm i₂)
    (σ.symm r₀) (σ.symm r₁)
    (fun h => h02 (σ.symm.injective h)) (fun h => h0a (σ.symm.injective h))
    (fun h => h0b (σ.symm.injective h)) (fun h => h1a (σ.symm.injective h))
    (fun h => h1b (σ.symm.injective h)) (fun h => hab (σ.symm.injective h))
    (fun j hj => by
      show psum (c (σ (σ.symm i₀))) < psum (c (σ j))
      rw [e]
      exact hmin (σ j) (hback j i₀ hj))
    (fun j hj => by
      show psum (c (σ j)) < psum (c (σ (σ.symm i₂)))
      rw [e]
      exact hmax (σ j) (hback j i₂ hj))
    (by
      show pdiff (c (σ (σ.symm r₁))) < pdiff (c (σ (σ.symm r₀)))
      rw [e, e]
      exact hd)
  rw [h1, order_corners_char c i₀ i₂ r₀ r₁ h02 h0a h0b h1a h1b hab hmin hmax hd]
  simp only [e]

/-- C6 counterexample: the four points (0,1), (1,0), (5,5), (10,10) are
pairwise distinct, yet swapping the first two (a permutation of the
input) changes the output of CornerOrderer, because (0,1) and (1,0) tie
in x + y and np.argmin resolves the tie by input position. -/
theorem corner_perm_cex :
    ((List.finRange 4).map c6b).Perm ((List.finRange 4).map c6a) ∧
    List.Pairwise (· ≠ ·) ((List.finRange 4).map c6a) ∧
    order_corners c6b ≠ order_corners c6a := by
  refine ⟨by decide, by decide, ?_⟩
  have hminA : ∀ j : Fin 4, psum (c6a 0) ≤ psum (c6a j) := by
    intro j
    have : j = 0 ∨ j = 1 ∨ j = 2 ∨ j = 3 := by omega
    rcases this with rfl | rfl | rfl | rfl <;> norm_num [c6a, psum]
  have hmaxA : ∀ j : Fin 4, j < 3 → psum (c6a j) < psum (c6a 3) := by
    intro j hj
    have : j = 0 ∨ j = 1 ∨ j = 2 := by omega
    rcases this with rfl | rfl | rfl <;> norm_num [c6a, psum]
  have hmaxAle : ∀ j : Fin 4, psum (c6a j) ≤ psum (c6a 3) := by
    intro j
    have : j = 0 ∨ j = 1 ∨ j = 2 ∨ j = 3 := by omega
    rcases this with rfl | rfl | rfl | rfl <;> norm_num [c6a, psum]
  have heqA : order_corners c6a = [c6a 0, c6a 1, c6a 3, c6a 2] := by
    rw [order_corners_spec c6a 0 3 1 2
      (argmin4_first _ 0 hminA (fun j hj => absurd hj (by omega)))
      (argmax4_first _ 3 hmaxAle hmaxA) (by decide),
      if_pos (by norm_num [c6a, pdiff])]
  have hminB : ∀ j : Fin 4, psum (c6b 0) ≤ psum (c6b j) := by
    intro j
    have : j = 0 ∨ j = 1 ∨ j = 2 ∨ j = 3 := by omega
    rcases this with rfl | rfl | rfl | rfl <;> norm_num [c6b, psum]
  have hmaxB : ∀ j : Fin 4, j < 3 → psum (c6b j) < psum (c6b 3) := by
    intro j hj
    have : j = 0 ∨ j = 1 ∨ j = 2 := by omega
    rcases this with rfl | rfl | rfl <;> norm_num [c6b, psum]
  have hmaxBle : ∀ j : Fin 4, psum (c6b j) ≤ psum (c6b 3) := by
    intro j
    have : j = 0 ∨ j = 1 ∨ j = 2 ∨ j = 3 := by omega
    rcases this with rfl | rfl | rfl | rfl <;> norm_num [c6b, psum]
  have heqB : order_corners c6b = [c6b 0, c6b 2, c6b 3, c6b 1] := by
    rw [order_corners_spec c6b 0 3 1 2
      (argmin4_first _ 0 hminB (fun j hj => absurd hj (by omega)))
      (argmax4_first _ 3 hmaxBle hmaxB) (by decide),
      if_neg (by norm_num [c6b, pdiff])]
  rw [heqA, heqB]
  intro h
  have h2 := congrArg (fun l => l.getD 0 (0, 0)) h
  simp only [List.getD, List.get?, c6a, c6b] at h2
  norm_num [Prod.ext_iff] at h2

/-- Witness for C6: the axis-aligned square has a unique s-minimizer,
a unique s-maximizer and distinct diffs, so swapping two of its corners
before ordering does not change the result. -/
theorem corner_perm_witness :
    order_corners (fun i => sq100 ((Equiv.swap 0 2) i)) = order_corners sq100 := by
  have hm : ∀ j : Fin 4, j ≠ 0 → psum (sq100 0) < psum (sq100 j) := by
    intro j hj
    have : j = 0 ∨ j = 1 ∨ j = 2 ∨ j = 3 := by omega
    rcases this with rfl | rfl | rfl | rfl
    · exact absurd rfl hj
    all_goals norm_num [sq100, psum]
  have hM : ∀ j : Fin 4, j ≠ 2 → psum (sq100 j) < psum (sq100 2) := by
    intro j hj
    have : j = 0 ∨ j = 1 ∨ j = 2 ∨ j = 3 := by omega
    rcases this with rfl | rfl | rfl | rfl
    · norm_num [sq100, psum]
    · norm_num [sq100, psum]
    · exact absurd rfl hj
    · norm_num [sq100, psum]
  have hD : pdiff (sq100 3) < pdiff (sq100 1) := by norm_num [sq100, pdiff]
  exact corner_perm_invariant sq100 (Equiv.swap 0 2) 0 2 1 3 (by decide) (by decide)
    (by decide) (by decide) (by decide) (by decide) hm hM hD

/-- The error list of `validate_fen`, spelled as the five check blocks in
program order. -/
theorem validate_fen_errors (fen : Str) :
    (validate_fen fen).errors =
      rankCountErrors (splitChar '/' (boardPartOf fen)) ++ charErrors (boardPartOf fen)
        ++ rankSumErrors (splitChar '/' (boardPartOf fen)) ++ kingErrors (boardPartOf fen)
        ++ pawnErrors (boardPartOf fen) := rfl

/-- The validity flag of `validate_fen` is the emptiness of its error
list. -/
theorem validate_fen_valid_iff (fen : Str) :
    (validate_fen fen).valid = true ↔ (validate_fen fen).errors = [] := by
  have h : (validate_fen fen).valid = ((validate_fen fen).errors.length == 0) := rfl
  rw [h]
  simp [List.length_eq_zero]

/-- A string whose first character is not E is not the rank-count
message. -/
theorem isRank_false_head (e : Str) (h : e.headD ' ' ≠ 'E') :
    isRankCountMsg e = false := by
  unfold isRankCountMsg
  apply decide_eq_false
  intro hEq
  apply h
  have h10 : (e.take 10).headD ' ' = ("Expected 8").data.headD ' ' := by rw [hEq]
  cases e with
  | nil => exact absurd hEq (by decide)
  | cons a t => simpa using h10

/-- A string whose tenth character is not 8 is not the rank-count
message. -/
theorem isRank_false_pos9 (e : Str) (h : e.getD 9 ' ' ≠ '8') :
    isRankCountMsg e = false := by
  unfold isRankCountMsg
  apply decide_eq_false
  intro hEq
  apply h
  have h9 : (e.take 10).getD 9 ' ' = ("Expected 8").data.getD 9 ' ' := by rw [hEq]
  rcases e with _ | ⟨a, t⟩
  · exact absurd hEq (by decide)
  · simpa [List.getD, List.getElem?_take] using h9

/-- Filtering a singleton whose element fails the predicate gives the
empty list. -/
theorem filter_single_false {p : Str → Bool} {a : Str} (h : p a = false) :
    List.filter p [a] = [] := by
  simp [List.filter_cons, h]

/-- Filtering a singleton whose element satisfies the predicate keeps
it. -/
theorem filter_single_true {p : Str → Bool} {a : Str} (h : p a = true) :
    List.filter p [a] = [a] := by
  simp [List.filter_cons, h]

/-- A string whose first character is a given non-E character is not the
rank-count message. -/
theorem isRank_false_head_eq (e : Str) (a : Char) (ha : e.headD ' ' = a)
    (hne : a ≠ 'E') : isRankCountMsg e = false :=
  isRank_false_head e (by rw [ha]; exact hne)

/-- A string whose tenth character is a given non-8 character is not the
rank-count message. -/
theorem isRank_false_pos9_eq (e : Str) (a : Char) (ha : e.getD 9 ' ' = a)
    (hne : a ≠ '8') : isRankCountMsg e = false :=
  isRank_false_pos9 e (by rw [ha]; exact hne)

/-- The character check never emits the rank-count message. -/
theorem charErrors_filter_rank (bp : Str) :
    (charErrors bp).filter isRankCountMsg = [] := by
  rw [List.filter_eq_nil_iff]
  intro e he
  rcases List.mem_filterMap.mp he with ⟨ch, _, hch⟩
  split_ifs at hch
  have he2 : e = ("Invalid character '").data ++ [ch] ++ ("' in board portion.").data :=
    (Option.some.inj hch).symm
  have hmsg : isRankCountMsg (("Invalid character '").data ++ [ch]
      ++ ("' in board portion.").data) = false :=
    isRank_false_head_eq _ 'I' rfl (by decide)
  rw [he2, hmsg]
  simp

/-- The rank-sum check never emits the rank-count message. -/
theorem rankSumErrors_filter_rank (ranks : List Str) :
    (rankSumErrors ranks).filter isRankCountMsg = [] := by
  rw [List.filter_eq_nil_iff]
  intro e he
  rcases List.mem_filterMap.mp he with ⟨p, _, hp⟩
  split_ifs at hp
  have he2 : e = ("Rank ").data ++ (Int.repr (8 - (p.1 : ℤ))).data
      ++ (" ('").data ++ p.2 ++ ("') sums to ").data
      ++ (Nat.repr (rankTotal p.2)).data ++ (" squares; expected 8.").data :=
    (Option.some.inj hp).symm
  have hmsg : isRankCountMsg (("Rank ").data ++ (Int.repr (8 - (p.1 : ℤ))).data
      ++ (" ('").data ++ p.2 ++ ("') sums to ").data
      ++ (Nat.repr (rankTotal p.2)).data ++ (" squares; expected 8.").data) = false :=
    isRank_false_head_eq _ 'R' rfl (by decide)
  rw [he2, hmsg]
  simp

/-- The king checks never emit the rank-count message. -/
theorem kingErrors_filter_rank (bp : Str) :
    (kingErrors bp).filter isRankCountMsg = [] := by
  have hK : isRankCountMsg (("Expected exactly 1 white king ('K'), found ").data
      ++ (Nat.repr (bp.count 'K')).data ++ ['.']) = false :=
    isRank_false_pos9_eq _ 'e' rfl (by decide)
  have hk : isRankCountMsg (("Expected exactly 1 black king ('k'), found ").data
      ++ (Nat.repr (bp.count 'k')).data ++ ['.']) = false :=
    isRank_false_pos9_eq _ 'e' rfl (by decide)
  rw [kingErrors]
  split_ifs <;>
    simp only [List.filter_append, List.filter_nil, filter_single_false hK,
      filter_single_false hk, List.append_nil, List.nil_append]

/-- The pawn checks never emit the rank-count message. -/
theorem pawnErrors_filter_rank (bp : Str) :
    (pawnErrors bp).filter isRankCountMsg = [] := by
  have hP : isRankCountMsg (("White has ").data ++ (Nat.repr (bp.count 'P')).data
      ++ (" pawns; maximum is 8.").data) = false :=
    isRank_false_head_eq _ 'W' rfl (by decide)
  have hp : isRankCountMsg (("Black has ").data ++ (Nat.repr (bp.count 'p')).data
      ++ (" pawns; maximum is 8.").data) = false :=
    isRank_false_head_eq _ 'B' rfl (by decide)
  rw [pawnErrors]
  split_ifs <;>
    simp only [List.filter_append, List.filter_nil, filter_single_false hP,
      filter_single_false hp, List.append_nil, List.nil_append]

/-- C8: the validator is valid exactly when its collected error list is
empty; it collects violations independently: on the empty-board FEN it
reports exactly the two zero-king violations and is invalid, and on any
input whose board field has 7 rank groups the error list contains exactly
one rank-count violation, whatever other defects are present. -/
theorem validator_collects_all :
    (∀ fen : Str, (validate_fen fen).valid = true ↔ (validate_fen fen).errors = []) ∧
    validate_fen ("8/8/8/8/8/8/8/8 w KQkq - 0 1").data =
      ⟨false,
        [("Expected exactly 1 white king ('K'), found 0.").data,
         ("Expected exactly 1 black king ('k'), found 0.").data]⟩ ∧
    ∀ fen : Str, (splitChar '/' (boardPartOf fen)).length = 7 →
      ((validate_fen fen).errors.filter isRankCountMsg).length = 1 := by
  refine ⟨validate_fen_valid_iff, by decide, ?_⟩
  intro fen h7
  have hrc : rankCountErrors (splitChar '/' (boardPartOf fen))
      = [("Expected 8 ranks separated by '/', found ").data ++ (Nat.repr 7).data ++ ['.']] := by
    rw [rankCountErrors, h7]
    rw [if_pos (by decide)]
  have hmsg : isRankCountMsg (("Expected 8 ranks separated by '/', found ").data
      ++ (Nat.repr 7).data ++ ['.']) = true := rfl
  rw [validate_fen_errors fen, List.filter_append, List.filter_append,
    List.filter_append, List.filter_append, hrc, charErrors_filter_rank,
    rankSumErrors_filter_rank, kingErrors_filter_rank, pawnErrors_filter_rank,
    filter_single_true hmsg]
  rfl

/-- Witness for C8: a FEN whose board field has only 7 rank groups yields
exactly one rank-count violation. -/
theorem validator_collects_witness :
    ((validate_fen ("8/8/8/8/8/8/8 w - - 0 1").data).errors.filter isRankCountMsg).length
      = 1 :=
  validator_collects_all.2.2 ("8/8/8/8/8/8/8 w - - 0 1").data (by decide)

/-- Flushing at most 8 empties contributes exactly that many squares. -/
theorem flush_total (n : Nat) (hn : n ≤ 8) : rankTotal (flushEmpties n) = n := by
  interval_cases n <;> decide

/-- Flushing at most 8 empties emits only the digits 1 through 8. -/
theorem flush_digits (n : Nat) (hn : n ≤ 8) :
    ∀ c ∈ flushEmpties n, c ∈ ("12345678").data := by
  interval_cases n <;> decide

/-- A non-digit character never appears in a flushed run. -/
theorem count_flush (ch : Char) (hch : ch.isDigit = false) (n : Nat) (hn : n ≤ 8) :
    (flushEmpties n).count ch = 0 := by
  rw [List.count_eq_zero]
  intro hmem
  have h1 := flush_digits n hn ch hmem
  revert hch
  fin_cases h1 <;> decide

/-- The square total is additive. -/
theorem rankTotal_append (a b : Str) :
    rankTotal (a ++ b) = rankTotal a + rankTotal b := by
  simp [rankTotal]

/-- Run-length encoding of at most 8 non-digit cells plus a pending run
sums to the pending run plus the number of cells. -/
theorem rle_total (cells : List (Option Char)) :
    ∀ n : Nat, n + cells.length ≤ 8 →
    (∀ ch, some ch ∈ cells → ch.isDigit = false) →
    rankTotal (rle cells n) = n + cells.length := by
  induction cells with
  | nil =>
    intro n hn _
    simp only [rle, List.length_nil]
    rw [flush_total n (by omega)]
    omega
  | cons cell rest ih =>
    intro n hn hnd
    have hlen : (cell :: rest).length = rest.length + 1 := rfl
    cases cell with
    | some ch =>
      simp only [rle]
      rw [rankTotal_append]
      have h1 : rankTotal (ch :: rle rest 0) = charSquares ch + rankTotal (rle rest 0) := by
        simp [rankTotal]
      have hch : charSquares ch = 1 := by
        have hd := hnd ch (by simp)
        simp [charSquares, hd]
      rw [h1, hch, flush_total n (by rw [hlen] at hn; omega),
        ih 0 (by rw [hlen] at hn; omega) (fun c hc => hnd c (by simp [hc]))]
      rw [hlen]
      omega
    | none =>
      simp only [rle]
      rw [ih (n + 1) (by rw [hlen] at hn; omega) (fun c hc => hnd c (by simp [hc]))]
      rw [hlen]
      omega

/-- For a non-digit character, counting in the encoded rank counts the
occupied cells holding that character. -/
theorem rle_count (ch : Char) (hch : ch.isDigit = false) (cells : List (Option Char)) :
    ∀ n : Nat, n + cells.length ≤ 8 →
    (rle cells n).count ch = cells.count (some ch) := by
  induction cells with
  | nil =>
    intro n hn
    simp only [rle, List.count_nil]
    exact count_flush ch hch n (by omega)
  | cons cell rest ih =>
    intro n hn
    have hlen : (cell :: rest).length = rest.length + 1 := rfl
    cases cell with
    | some c' =>
      simp only [rle]
      rw [List.count_append, count_flush ch hch n (by rw [hlen] at hn; omega),
        List.count_cons, List.count_cons, ih 0 (by rw [hlen] at hn; omega)]
      have he : (c' == ch) = (some c' == some ch) := rfl
      rw [he]
      omega
    | none =>
      simp only [rle]
      rw [ih (n + 1) (by rw [hlen] at hn; omega), List.count_cons]
      simp

/-- Every character of an encoded rank is a digit 1 through 8 or comes
from an occupied cell. -/
theorem rle_chars (cells : List (Option Char)) :
    ∀ n : Nat, n + cells.length ≤ 8 →
    ∀ c ∈ rle cells n, c ∈ ("12345678").data ∨ ∃ ch, some ch ∈ cells ∧ c = ch := by
  induction cells with
  | nil =>
    intro n hn c hc
    exact Or.inl (flush_digits n (by omega) c hc)
  | cons cell rest ih =>
    intro n hn c hc
    have hlen : (cell :: rest).length = rest.length + 1 := rfl
    cases cell with
    | some ch =>
      simp only [rle] at hc
      rcases List.mem_append.mp hc with h1 | h2
      · exact Or.inl (flush_digits n (by rw [hlen] at hn; omega) c h1)
      · rcases List.mem_cons.mp h2 with h3 | h4
        · exact Or.inr ⟨ch, by simp, h3⟩
        · rcases ih 0 (by rw [hlen] at hn; omega) c h4 with h5 | ⟨u, hu, hc5⟩
          · exact Or.inl h5
          · exact Or.inr ⟨u, by simp [hu], hc5⟩
    | none =>
      simp only [rle] at hc
      rcases ih (n + 1) (by rw [hlen] at hn; omega) c hc with h5 | ⟨u, hu, hc5⟩
      · exact Or.inl h5
      · exact Or.inr ⟨u, by simp [hu], hc5⟩

/-- The FEN character of any class name is the question mark or one of
the 12 piece letters. -/
theorem pieceChar_mem (pc : Str) :
    pieceChar pc ∈ ('?' :: ("KQRBNPkqrbnp").data) := by
  unfold pieceChar PIECE_TO_FEN
  simp only [List.lookup]
  repeat' split
  all_goals decide

/-- FEN piece characters are never digits. -/
theorem pieceChar_not_digit (pc : Str) : (pieceChar pc).isDigit = false := by
  have h := pieceChar_mem pc
  revert h
  generalize pieceChar pc = c
  intro h
  fin_cases h <;> decide

/-- FEN piece characters are never the rank separator. -/
theorem pieceChar_ne_slash (pc : Str) : pieceChar pc ≠ '/' := by
  have h := pieceChar_mem pc
  revert h
  generalize pieceChar pc = c
  intro h
  fin_cases h <;> decide

/-- FEN piece characters are never the field separator. -/
theorem pieceChar_ne_space (pc : Str) : pieceChar pc ≠ ' ' := by
  have h := pieceChar_mem pc
  revert h
  generalize pieceChar pc = c
  intro h
  fin_cases h <;> decide

/-- On the 12 recognized class names the FEN character table is
injective. -/
theorem pieceChar_inj (l t : Str) (hl : l ∈ labels12) (ht : t ∈ labels12) :
    pieceChar l = pieceChar t ↔ l = t := by
  fin_cases hl <;> fin_cases ht <;> decide

/-- Splitting a string that does not contain the separator returns it
whole. -/
theorem splitChar_no_sep (sep : Char) (s : Str) (h : sep ∉ s) :
    splitChar sep s = [s] := by
  induction s with
  | nil => rfl
  | cons c t ih =>
    simp only [splitChar]
    rw [if_neg (fun hc : c = sep => h (hc ▸ List.mem_cons_self c t)),
      ih (fun hm => h (List.mem_cons_of_mem c hm))]

/-- Splitting at the first separator occurrence peels off the prefix. -/
theorem splitChar_append (sep : Char) (s t : Str) (h : sep ∉ s) :
    splitChar sep (s ++ sep :: t) = s :: splitChar sep t := by
  induction s with
  | nil => simp [splitChar]
  | cons c s' ih =>
    simp only [List.cons_append, splitChar, List.append_eq]
    rw [if_neg (fun hc : c = sep => h (hc ▸ List.mem_cons_self c s')),
      ih (fun hm => h (List.mem_cons_of_mem c hm))]

/-- Splitting inverts joining when no part contains the separator. -/
theorem splitChar_joinChar (sep : Char) (L : List Str) (hne : L ≠ [])
    (h : ∀ s ∈ L, sep ∉ s) : splitChar sep (joinChar sep L) = L := by
  induction L with
  | nil => exact absurd rfl hne
  | cons s rest ih =>
    cases rest with
    | nil => exact splitChar_no_sep sep s (h s (by simp))
    | cons s2 rest2 =>
      rw [show joinChar sep (s :: s2 :: rest2) = s ++ sep :: joinChar sep (s2 :: rest2)
        from rfl]
      rw [splitChar_append sep _ _ (h s (by simp)),
        ih (by simp) (fun x hx => h x (List.mem_cons_of_mem s hx))]

/-- Every character of a join is the separator or comes from a part. -/
theorem mem_joinChar (sep : Char) (L : List Str) (c : Char)
    (h : c ∈ joinChar sep L) : c = sep ∨ ∃ s ∈ L, c ∈ s := by
  induction L with
  | nil => simp [joinChar] at h
  | cons s rest ih =>
    cases rest with
    | nil => exact Or.inr ⟨s, by simp, h⟩
    | cons s2 rest2 =>
      rw [show joinChar sep (s :: s2 :: rest2) = s ++ sep :: joinChar sep (s2 :: rest2)
        from rfl] at h
      rcases List.mem_append.mp h with h1 | h2
      · exact Or.inr ⟨s, by simp, h1⟩
      · rcases List.mem_cons.mp h2 with h3 | h4
        · exact Or.inl h3
        · rcases ih h4 with h5 | ⟨u, hu, hcu⟩
          · exact Or.inl h5
          · exact Or.inr ⟨u, List.mem_cons_of_mem s hu, hcu⟩

/-- Counting a non-separator character in a join sums the counts of the
parts. -/
theorem count_joinChar (sep ch : Char) (hne : ch ≠ sep) (L : List Str) :
    (joinChar sep L).count ch = (L.map fun s => s.count ch).sum := by
  induction L with
  | nil => rfl
  | cons s rest ih =>
    cases rest with
    | nil => simp [joinChar]
    | cons s2 rest2 =>
      rw [show joinChar sep (s :: s2 :: rest2) = s ++ sep :: joinChar sep (s2 :: rest2)
        from rfl]
      rw [List.count_append, List.count_cons, ih]
      have hsep : (sep == ch) = false := by
        simp [beq_iff_eq]
        exact fun hc => hne hc.symm
      rw [hsep]
      simp [List.map_cons, List.sum_cons]

/-- Each rank has exactly 8 cells. -/
theorem cellsOf_length (m : Str → Option Str) (r : Nat) : (cellsOf m r).length = 8 := by
  simp [cellsOf, fileChars]

/-- No cell holds a digit. -/
theorem cellsOf_not_digit (m : Str → Option Str) (r : Nat) :
    ∀ ch, some ch ∈ cellsOf m r → ch.isDigit = false := by
  intro ch hch
  rcases List.mem_map.mp hch with ⟨fc, _, hcell⟩
  cases hm : m (fc :: (Nat.repr r).data) with
  | none => rw [hm] at hcell; exact absurd hcell.symm (by simp)
  | some l =>
    rw [hm] at hcell
    simp only [Option.map_some'] at hcell
    rw [← Option.some.inj hcell]
    exact pieceChar_not_digit l

/-- Every generated rank string sums to exactly 8 squares. -/
theorem rank_str_total (m : Str → Option Str) (r : Nat) :
    rankTotal (rank_str m r) = 8 := by
  rw [rank_str, rle_total (cellsOf m r) 0 (by rw [cellsOf_length])
    (cellsOf_not_digit m r), cellsOf_length]

/-- Every character of a generated rank string is a digit 1 through 8 or
the FEN character of an occupant recorded in the map. -/
theorem rank_str_chars (m : Str → Option Str) (r : Nat) :
    ∀ c ∈ rank_str m r, c ∈ ("12345678").data ∨
      ∃ fc l, m (fc :: (Nat.repr r).data) = some l ∧ c = pieceChar l := by
  intro c hc
  rcases rle_chars (cellsOf m r) 0 (by rw [cellsOf_length]) c hc
    with h | ⟨ch, hch, hc2⟩
  · exact Or.inl h
  · rcases List.mem_map.mp hch with ⟨fc, _, hcell⟩
    cases hm : m (fc :: (Nat.repr r).data) with
    | none => rw [hm] at hcell; exact absurd hcell.symm (by simp)
    | some l =>
      rw [hm] at hcell
      simp only [Option.map_some'] at hcell
      exact Or.inr ⟨fc, l, hm, by rw [hc2, ← Option.some.inj hcell]⟩

/-- Rank strings never contain the rank separator. -/
theorem rank_str_no_slash (m : Str → Option Str) (r : Nat) : '/' ∉ rank_str m r := by
  intro h
  rcases rank_str_chars m r '/' h with h1 | ⟨_, l, _, h2⟩
  · exact absurd h1 (by decide)
  · exact pieceChar_ne_slash l h2.symm

/-- Rank strings never contain the field separator. -/
theorem rank_str_no_space (m : Str → Option Str) (r : Nat) : ' ' ∉ rank_str m r := by
  intro h
  rcases rank_str_chars m r ' ' h with h1 | ⟨_, l, _, h2⟩
  · exact absurd h1 (by decide)
  · exact pieceChar_ne_space l h2.symm

/-- There are 8 generated rank strings. -/
theorem ranksOfMap_length (m : Str → Option Str) : (ranksOfMap m).length = 8 := by
  simp [ranksOfMap]

/-- Membership in the generated rank list. -/
theorem mem_ranksOfMap (m : Str → Option Str) (r : Str) (h : r ∈ ranksOfMap m) :
    ∃ k, r = rank_str m k := by
  rcases List.mem_map.mp h with ⟨k, _, hk⟩
  exact ⟨k, hk.symm⟩

/-- The board field the validator extracts from a generated FEN is the
joined rank list. -/
theorem boardPart_generate (m : Str → Option Str) :
    boardPartOf (generate_fen m) = joinChar '/' (ranksOfMap m) := by
  have hnospace : ' ' ∉ joinChar '/' (ranksOfMap m) := by
    intro h
    rcases mem_joinChar '/' _ ' ' h with h1 | ⟨s, hs, hcs⟩
    · exact absurd h1 (by decide)
    · rcases mem_ranksOfMap m s hs with ⟨k, rfl⟩
      exact rank_str_no_space m k hcs
  rw [generate_fen, boardPartOf,
    if_pos (List.mem_append.mpr (Or.inr (by decide : ' ' ∈ (" w KQkq - 0 1").data))),
    show (" w KQkq - 0 1").data = ' ' :: ("w KQkq - 0 1").data from rfl,
    splitChar_append ' ' _ _ hnospace]
  rfl

/-- Splitting the generated board field recovers the 8 rank strings. -/
theorem ranks_split (m : Str → Option Str) :
    splitChar '/' (boardPartOf (generate_fen m)) = ranksOfMap m := by
  rw [boardPart_generate]
  refine splitChar_joinChar '/' _ ?_ ?_
  · intro h
    have := congrArg List.length h
    rw [ranksOfMap_length] at this
    exact absurd this (by decide)
  · intro s hs
    rcases mem_ranksOfMap m s hs with ⟨k, rfl⟩
    exact rank_str_no_slash m k

/-- The rank-count check never fires on generated FEN. -/
theorem rankCountErrors_generate_nil (m : Str → Option Str) :
    rankCountErrors (splitChar '/' (boardPartOf (generate_fen m))) = [] := by
  rw [rankCountErrors, ranks_split, ranksOfMap_length, if_neg (by decide)]

/-- The rank-sum check never fires on generated FEN. -/
theorem rankSumErrors_generate_nil (m : Str → Option Str) :
    rankSumErrors (splitChar '/' (boardPartOf (generate_fen m))) = [] := by
  rw [rankSumErrors, List.filterMap_eq_nil_iff]
  intro p hp
  have hmem : p.2 ∈ ranksOfMap m := by
    rw [ranks_split] at hp
    exact List.snd_mem_of_mem_enum hp
  rcases mem_ranksOfMap m p.2 hmem with ⟨k, hk⟩
  rw [if_neg]
  rw [hk, rank_str_total]
  omega

/-- C10: for every input map, however ill-formed its keys or values, the
generated board field has exactly 8 slash-separated rank groups, every
group sums to exactly 8 squares under the digit/piece counting rule, and
the validator's rank-count and rank-sum checks collect no violation. -/
theorem fen_board_structural (m : Str → Option Str) :
    (splitChar '/' (boardPartOf (generate_fen m))).length = 8 ∧
    (∀ r ∈ splitChar '/' (boardPartOf (generate_fen m)), rankTotal r = 8) ∧
    rankCountErrors (splitChar '/' (boardPartOf (generate_fen m))) = [] ∧
    rankSumErrors (splitChar '/' (boardPartOf (generate_fen m))) = [] := by
  refine ⟨by rw [ranks_split]; exact ranksOfMap_length m, ?_,
    rankCountErrors_generate_nil m, rankSumErrors_generate_nil m⟩
  intro r hr
  rw [ranks_split] at hr
  rcases mem_ranksOfMap m r hr with ⟨k, rfl⟩
  exact rank_str_total m k

/-- Filtering then taking the length is counting. -/
theorem length_filter_eq_countP {α : Type} (p : α → Bool) (l : List α) :
    (l.filter p).length = l.countP p := by
  induction l with
  | nil => rfl
  | cons a t ih => by_cases h : p a <;> simp [List.filter_cons, List.countP_cons, h, ih]

/-- Counting over a flat map sums per-element counts. -/
theorem countP_flatMap {α β : Type} (l : List α) (f : α → List β) (p : β → Bool) :
    (l.flatMap f).countP p = (l.map fun a => (f a).countP p).sum := by
  induction l with
  | nil => rfl
  | cons a t ih => simp [List.flatMap_cons, List.countP_append, ih]

/-- Counting a piece letter in the generated board field counts the
squares the map sends to the corresponding class name. -/
theorem count_board (m : Str → Option Str)
    (hvals : ∀ s l, m s = some l → l ∈ labels12)
    (t : Str) (ht : t ∈ labels12) :
    (boardPartOf (generate_fen m)).count (pieceChar t) = countLabel m t := by
  rw [boardPart_generate, count_joinChar '/' (pieceChar t) (pieceChar_ne_slash t),
    countLabel, length_filter_eq_countP, squares64, countP_flatMap, ranksOfMap,
    List.map_map]
  congr 1
  apply List.map_congr_left
  intro rk _
  show (rank_str m rk).count (pieceChar t)
    = (fileChars.map fun fc => fc :: (Nat.repr rk).data).countP fun s => m s == some t
  rw [rank_str, rle_count (pieceChar t) (pieceChar_not_digit t) (cellsOf m rk) 0
    (by rw [cellsOf_length]),
    show (cellsOf m rk).count (some (pieceChar t))
      = (cellsOf m rk).countP (· == some (pieceChar t)) from rfl,
    cellsOf, List.countP_map, List.countP_map]
  apply List.countP_congr
  intro fc _
  simp only [Function.comp_apply]
  have hb : ((m (fc :: (Nat.repr rk).data)).map pieceChar == some (pieceChar t))
      = (m (fc :: (Nat.repr rk).data) == some t) := by
    cases hm : m (fc :: (Nat.repr rk).data) with
    | none => rfl
    | some l =>
      simp only [Option.map_some']
      have hl : l ∈ labels12 := hvals _ _ hm
      by_cases h : l = t
      · subst h
        rw [beq_self_eq_true, beq_self_eq_true]
      · have hne : pieceChar l ≠ pieceChar t := fun hc => h ((pieceChar_inj l t hl ht).mp hc)
        rw [beq_eq_false_iff_ne.mpr (by simp [hne]), beq_eq_false_iff_ne.mpr (by simp [h])]
  rw [hb]

/-- The character check never fires on a map whose values are among the
12 recognized class names. -/
theorem charErrors_generate_nil (m : Str → Option Str)
    (hvals : ∀ s l, m s = some l → l ∈ labels12) :
    charErrors (boardPartOf (generate_fen m)) = [] := by
  rw [charErrors, List.filterMap_eq_nil_iff]
  intro ch hch
  rw [boardPart_generate] at hch
  rw [if_neg]
  intro hcond
  rcases mem_joinChar '/' _ ch hch with h1 | ⟨s, hs, hcs⟩
  · exact hcond.1 h1
  · rcases mem_ranksOfMap m s hs with ⟨k, rfl⟩
    rcases rank_str_chars m k ch hcs with h2 | ⟨fc, l, hm, h3⟩
    · refine hcond.2 ?_
      revert h2
      generalize ch = c
      intro h2
      fin_cases h2 <;> decide
    · have hl : l ∈ labels12 := hvals _ _ hm
      refine hcond.2 ?_
      rw [h3]
      revert hl
      generalize l = u
      intro hl
      fin_cases hl <;> decide

/-- The king checks collect nothing exactly when each king count is 1. -/
theorem kingErrors_eq_nil_iff (bp : Str) :
    kingErrors bp = [] ↔ bp.count 'K' = 1 ∧ bp.count 'k' = 1 := by
  rw [kingErrors]
  split_ifs <;> simp_all

/-- The pawn checks collect nothing exactly when each pawn count is at
most 8. -/
theorem pawnErrors_eq_nil_iff (bp : Str) :
    pawnErrors bp = [] ↔ bp.count 'P' ≤ 8 ∧ bp.count 'p' ≤ 8 := by
  rw [pawnErrors]
  split_ifs <;> simp_all

/-- C2: for a map whose keys are valid squares and whose values are the
12 recognized class names, generating and then validating collects zero
violations exactly when the map holds one white king, one black king, at
most 8 white pawns and at most 8 black pawns. -/
theorem fen_roundtrip (m : Str → Option Str)
    (_hkeys : ∀ s, s ∉ squares64 → m s = none)
    (hvals : ∀ s l, m s = some l → l ∈ labels12) :
    (validate_fen (generate_fen m)).errors = [] ↔
      countLabel m ("white_king").data = 1 ∧ countLabel m ("black_king").data = 1 ∧
      countLabel m ("white_pawn").data ≤ 8 ∧ countLabel m ("black_pawn").data ≤ 8 := by
  have cK : (boardPartOf (generate_fen m)).count 'K' = countLabel m ("white_king").data :=
    count_board m hvals ("white_king").data (by decide)
  have ck : (boardPartOf (generate_fen m)).count 'k' = countLabel m ("black_king").data :=
    count_board m hvals ("black_king").data (by decide)
  have cP : (boardPartOf (generate_fen m)).count 'P' = countLabel m ("white_pawn").data :=
    count_board m hvals ("white_pawn").data (by decide)
  have cp : (boardPartOf (generate_fen m)).count 'p' = countLabel m ("black_pawn").data :=
    count_board m hvals ("black_pawn").data (by decide)
  rw [validate_fen_errors, rankCountErrors_generate_nil m, charErrors_generate_nil m hvals,
    rankSumErrors_generate_nil m, List.nil_append, List.nil_append, List.nil_append,
    List.append_eq_nil, kingErrors_eq_nil_iff, pawnErrors_eq_nil_iff, cK, ck, cP, cp,
    and_assoc]

/-- Witness for C2: the two-king map round-trips with zero violations,
and its counts satisfy the right-hand side. -/
theorem fen_roundtrip_witness :
    (validate_fen (generate_fen twoKings)).errors = [] ∧
    countLabel twoKings ("white_king").data = 1 := by
  have hkeys : ∀ s, s ∉ squares64 → twoKings s = none := by
    intro s hs
    by_cases h1 : s = ("e1").data
    · exact absurd (by rw [h1]; decide) hs
    · by_cases h2 : s = ("e8").data
      · exact absurd (by rw [h2]; decide) hs
      · simp [twoKings, h1, h2]
  have hvals : ∀ s l, twoKings s = some l → l ∈ labels12 := by
    intro s l h
    rw [twoKings] at h
    split_ifs at h
    all_goals (rw [← Option.some.inj h]; decide)
  exact ⟨(fen_roundtrip twoKings hkeys hvals).mpr (by refine ⟨?_, ?_, ?_, ?_⟩ <;> decide),
    by decide⟩
